import Mathlib

/-!
Shallow embedding of `src/custom_rngs.py` (class `RandomGen`): a weighted
discrete-value sampler.  Python floats are modelled as exact rationals and
Python ints as `Int`; a stored value keeps its numeric subtype (`Val`).
Raised Python exceptions are modelled by `PyErr`, one constructor per
exception class that the source can raise.
-/

/-- A Python numeric value as stored in `RandomGen.nums`: either an `int` or a
`float` (the latter modelled as an exact rational). -/
inductive Val
  | intV (n : Int)
  | floatV (q : ℚ)
deriving DecidableEq, Repr

/-- The numeric magnitude of a value; Python compares `int` and `float` by
numeric value (`1 == 1.0` is `True`). -/
def Val.toRat : Val → ℚ
  | .intV n => (n : ℚ)
  | .floatV q => q

/-- Python `==` on numbers: equality of numeric magnitude across subtypes. -/
def pyEq (a b : Val) : Bool := decide (a.toRat = b.toRat)

/-- Python exceptions raised by the source, one constructor per class. -/
inductive PyErr
  | valueError (msg : String)
  | indexError (msg : String)
  | typeError (msg : String)
deriving DecidableEq, Repr

/-- A Python number passed as the draw count `k`; `isinstance(k, int)`
distinguishes the two constructors. -/
inductive PyNum
  | intN (n : Int)
  | floatN (q : ℚ)
deriving DecidableEq, Repr

/-- The sampler's probability table: `self.nums`, `self.probs`, `self.cdf`. -/
structure Table where
  nums : List Val
  probs : List ℚ
  cdf : List ℚ
deriving DecidableEq, Repr

/-- `numpy.isclose(a, b)` with default tolerances `rtol = 1e-5`, `atol = 1e-8`:
`|a - b| <= atol + rtol * |b|`. -/
def npIsClose (a b : ℚ) : Bool :=
  decide (|a - b| ≤ 1 / 100000000 + 1 / 100000 * |b|)

/-- `numpy.cumsum` continued from a running total `acc`. -/
def cumsumFrom (acc : ℚ) : List ℚ → List ℚ
  | [] => []
  | p :: rest => (acc + p) :: cumsumFrom (acc + p) rest

/-- `numpy.cumsum`: the list of prefix sums. -/
def cumsum (ps : List ℚ) : List ℚ := cumsumFrom 0 ps

/-- The size of the Python set `set(l)`: the number of distinct elements under
Python numeric equality (used by the source as `len(set(self.nums))`). -/
def pySetSize (l : List Val) : Nat :=
  (l.foldl (fun acc v => if acc.any (fun u => pyEq u v) then acc else acc ++ [v]) []).length

/-- `numpy.searchsorted(a, v)` with the default `side='left'` on a sorted
list: the smallest index `i` with `v ≤ a[i]`, or `a.length` if there is none. -/
def searchsortedLeft (a : List ℚ) (v : ℚ) : Nat :=
  a.findIdx (fun x => decide (v ≤ x))

/-- `RandomGen.__init__`, the table-building part: validation and the CDF
build.  `probabilities = none` models passing `None`.  The source guard
`if probabilities:` is Python truthiness, so an empty supplied list also takes
the equal-probability branch. -/
def initTable (random_nums : List Val) (probabilities : Option (List ℚ)) :
    Except PyErr Table :=
  let n := random_nums.length
  if n = 0 then
    .error (.valueError "At least one random number value is required")
  else if pySetSize random_nums < n then
    .error (.valueError "Values cannot repeat, ambiguous")
  else
    match probabilities with
    | some ps =>
      if ps.length ≠ 0 then
        if ps.length ≠ random_nums.length then
          .error (.valueError "Inputs not compatible")
        else if (!npIsClose ps.sum 1) || ps.any (fun p => decide (p ≤ 0) || decide (1 < p)) then
          .error (.valueError "Invalid probability")
        else
          .ok { nums := random_nums, probs := ps, cdf := cumsum ps }
      else
        .ok { nums := random_nums, probs := List.replicate n (1 / (n : ℚ)),
              cdf := cumsum (List.replicate n (1 / (n : ℚ))) }
    | none =>
      .ok { nums := random_nums, probs := List.replicate n (1 / (n : ℚ)),
            cdf := cumsum (List.replicate n (1 / (n : ℚ))) }

/-- The injectable random source (the `Rng` protocol).  `seedF` models
`seed(s)` on the default `random.Random`, where seeding fully determines the
generator state; `randomF` models `random()`, returning a uniform value in
`[0, 1)` together with the advanced generator state. -/
structure RngModel (S : Type) where
  seedF : Int → S
  randomF : S → ℚ × S

/-- A `RandomGen` instance: random-source state, stored seed, and the table. -/
structure Sampler (S : Type) where
  rngState : S
  seedVal : Option Int
  table : Table

variable {S : Type}

/-- `RandomGen.__init__`: seed the random source if a seed is supplied
(otherwise keep the source's initial state `s0`), validate, build the table. -/
def mkSampler (M : RngModel S) (s0 : S) (random_nums : List Val)
    (probabilities : Option (List ℚ)) (sd : Option Int) : Except PyErr (Sampler S) :=
  let st := match sd with
    | some s => M.seedF s
    | none => s0
  match initTable random_nums probabilities with
  | .ok t => .ok { rngState := st, seedVal := sd, table := t }
  | .error e => .error e

/-- `RandomGen.__next__`: draw `r`, locate it in the CDF with
`numpy.searchsorted` (default `side='left'`), return `self.nums[idx]`.
When `idx = len(nums)` the Python list access raises `IndexError`. -/
def nextV (M : RngModel S) (sp : Sampler S) : Except PyErr Val × Sampler S :=
  let rs := M.randomF sp.rngState
  let idx := searchsortedLeft sp.table.cdf rs.1
  let sp' : Sampler S := { sp with rngState := rs.2 }
  match sp.table.nums[idx]? with
  | some v => (.ok v, sp')
  | none => (.error (.indexError "list index out of range"), sp')

/-- The loop body of `next_k_nums` run to completion: `m` successive draws,
propagating a draw failure. -/
def drawN (M : RngModel S) : Sampler S → Nat → Except PyErr (List Val × Sampler S)
  | sp, 0 => .ok ([], sp)
  | sp, m + 1 =>
    match nextV M sp with
    | (.ok v, sp') =>
      match drawN M sp' m with
      | .ok (vs, sp'') => .ok (v :: vs, sp'')
      | .error e => .error e
    | (.error e, _) => .error e

/-- `RandomGen.next_k_nums(k)`, fully consumed: `isinstance(k, int) and k > 0`
guards the loop; otherwise `ValueError` is raised (on first iteration of the
generator). -/
def nextKNums (M : RngModel S) (sp : Sampler S) (k : PyNum) :
    Except PyErr (List Val × Sampler S) :=
  match k with
  | .intN n =>
    if 0 < n then drawN M sp n.toNat
    else .error (.valueError "Invalid k: must be a positive integer")
  | .floatN _ => .error (.valueError "Invalid k: must be a positive integer")

/-- The results of `m` successive calls of `next(self)`. -/
def drawSeq (M : RngModel S) : Sampler S → Nat → List (Except PyErr Val)
  | _, 0 => []
  | sp, m + 1 =>
    let r := nextV M sp
    r.1 :: drawSeq M r.2 m

/-- `RandomGen.__contains__`: `item in self.nums`, Python list membership
under numeric `==`. -/
def containsV (t : Table) (item : Val) : Bool :=
  t.nums.any (fun u => pyEq u item)

/-- The mutation tail of `RandomGen.remove`, reached after selector
resolution with the resolved position `jn`: check that more than one element
remains, pop the probability at `jn`, `list.remove` the value, add the equal
share `delta` to every remaining probability, rebuild the CDF.  The second
component records the raised exception, `none` meaning normal return. -/
def removeAt (t : Table) (value : Val) (jn : Nat) : Table × Option PyErr :=
  let n := t.nums.length
  if n ≤ 1 then
    (t, some (.valueError
      "Cannot remove only one number left. Instead, create a new RandomGen instance without it"))
  else
    let dlt := t.probs.getD jn 0 / ((n : ℚ) - 1)
    let probs' := (t.probs.eraseIdx jn).map (fun p => p + dlt)
    ({ nums := t.nums.eraseP (fun u => pyEq u value), probs := probs',
       cdf := cumsum probs' }, none)

/-- `RandomGen.remove(value=..., index=...)`.  All validation precedes any
mutation.  Note the source line
`raise "Passed value is not present in RNG's possible numbers"` raises a
`str`, which in Python 3 itself raises
`TypeError("exceptions must derive from BaseException")`. -/
def removeImpl (t : Table) (value : Option Val) (index : Option Int) :
    Table × Option PyErr :=
  match value, index with
  | none, none =>
    (t, some (.valueError "To remove element, specify either its value or its index"))
  | some _, some _ =>
    (t, some (.valueError "To remove element, specify either its value or its index"))
  | none, some i =>
    let n : Int := t.nums.length
    if ¬(-n ≤ i ∧ i < n) then
      (t, some (.indexError ("Index " ++ toString i ++
        " is out of the valid range for length " ++ toString (n - 1) ++ ".")))
    else
      let jn : Nat := (if i < 0 then i + n else i).toNat
      removeAt t (t.nums.getD jn (.intV 0)) jn
  | some v, none =>
    if ¬(containsV t v = true) then
      (t, some (.typeError "exceptions must derive from BaseException"))
    else
      removeAt t v (t.nums.findIdx (fun u => pyEq u v))

/-- The list is sorted in non-decreasing order. -/
def nondecr : List ℚ → Bool
  | [] => true
  | [_] => true
  | a :: b :: rest => decide (a ≤ b) && nondecr (b :: rest)

/-- The absolute slack `numpy.isclose(s, 1)` permits: `atol + rtol * 1`. -/
def npTol : ℚ := 1 / 100000000 + 1 / 100000

/-- The data-model invariant of a table: aligned non-empty columns, positive
probabilities bounded by `1 + npTol`, probability mass `1` within the
`numpy.isclose` tolerance, and a non-decreasing CDF ending at `1` within that
tolerance. -/
def tableInv (t : Table) : Prop :=
  t.nums.length = t.probs.length ∧ t.probs.length = t.cdf.length ∧
  1 ≤ t.nums.length ∧
  (∀ p ∈ t.probs, 0 < p ∧ p ≤ 1 + npTol) ∧
  npIsClose t.probs.sum 1 = true ∧
  nondecr t.cdf = true ∧
  npIsClose (t.cdf.getLast?.getD 0) 1 = true

/-- All table values pairwise distinct under Python equality: the construction
invariant established by the duplicate check. -/
def distinctVals (l : List Val) : Prop :=
  l.Pairwise (fun a b => pyEq a b = false)

deriving instance DecidableEq for Except

/-- A degenerate random source over `Unit` state whose every draw is `r`. -/
def rngConst (r : ℚ) : RngModel Unit :=
  { seedF := fun _ => (), randomF := fun _ => (r, ()) }

/-- A sampler over the `Unit`-state source holding the table `t`. -/
def spOf (t : Table) : Sampler Unit :=
  { rngState := (), seedVal := none, table := t }

/-- The spec's running example table: values `[-1, 0, 1]` with probabilities
`[0.3, 0.3, 0.4]`. -/
def exTable : Table :=
  { nums := [.intV (-1), .intV 0, .intV 1], probs := [3/10, 3/10, 2/5],
    cdf := [3/10, 3/5, 1] }

/-- The example table after removing the value `0`. -/
def exTableR : Table :=
  { nums := [.intV (-1), .intV 1], probs := [9/20, 11/20], cdf := [9/20, 1] }

/-- A two-outcome table with a half/half split (cdf `[1/2, 1]`). -/
def halfTable : Table :=
  { nums := [.intV 7, .intV 9], probs := [1/2, 1/2], cdf := [1/2, 1] }

/-- A valid table whose probabilities sum to `999999/1000000 < 1`: it passes
the `numpy.isclose` construction check, yet a uniform draw `r` with
`sum ≤ r < 1` sends `searchsorted` past the last CDF entry. -/
def shortTable : Table :=
  { nums := [.intV 0, .intV 1], probs := [1/2, 499999/1000000],
    cdf := [1/2, 999999/1000000] }

/-- A valid table whose probabilities sum to `1000001/1000000 > 1` (still
within the `numpy.isclose` tolerance). -/
def overTable : Table :=
  { nums := [.intV 1, .intV 2], probs := [1/2, 500001/1000000],
    cdf := [1/2, 1000001/1000000] }

/-- `overTable` after removing the value `1`: its only probability exceeds 1. -/
def overTableR : Table :=
  { nums := [.intV 2], probs := [1000001/1000000], cdf := [1000001/1000000] }

/-! ### Helper lemmas -/

theorem pyEq_refl (a : Val) : pyEq a a = true := by
  simp [pyEq]

theorem cumsumFrom_length (acc : ℚ) (l : List ℚ) :
    (cumsumFrom acc l).length = l.length := by
  induction l generalizing acc with
  | nil => rfl
  | cons p rest ih => simp [cumsumFrom, ih]

theorem cumsumFrom_getLast (l : List ℚ) (acc : ℚ) (h : l ≠ []) :
    (cumsumFrom acc l).getLast? = some (acc + l.sum) := by
  induction l generalizing acc with
  | nil => exact absurd rfl h
  | cons p rest ih =>
    cases rest with
    | nil => simp [cumsumFrom]
    | cons q rs =>
      rw [show cumsumFrom acc (p :: q :: rs) =
            (acc + p) :: cumsumFrom (acc + p) (q :: rs) from rfl]
      rw [show cumsumFrom (acc + p) (q :: rs) =
            (acc + p + q) :: cumsumFrom (acc + p + q) rs from rfl]
      rw [List.getLast?_cons_cons,
        show (acc + p + q) :: cumsumFrom (acc + p + q) rs =
          cumsumFrom (acc + p) (q :: rs) from rfl]
      rw [ih (acc + p) (by simp)]
      simp
      ring

theorem nondecr_cumsumFrom (l : List ℚ) (acc : ℚ) (h : ∀ p ∈ l, 0 ≤ p) :
    nondecr (cumsumFrom acc l) = true := by
  induction l generalizing acc with
  | nil => rfl
  | cons p rest ih =>
    cases rest with
    | nil => rfl
    | cons q rs =>
      rw [show cumsumFrom acc (p :: q :: rs) =
            (acc + p) :: (acc + p + q) :: cumsumFrom (acc + p + q) rs from rfl]
      rw [show nondecr ((acc + p) :: (acc + p + q) :: cumsumFrom (acc + p + q) rs) =
            (decide (acc + p ≤ acc + p + q) &&
              nondecr ((acc + p + q) :: cumsumFrom (acc + p + q) rs)) from rfl]
      have h1 : acc + p ≤ acc + p + q := by
        have : (0 : ℚ) ≤ q := h q (by simp)
        linarith
      have h2 := ih (acc + p) (fun x hx => h x (by simp [hx]))
      rw [show cumsumFrom (acc + p) (q :: rs) =
            (acc + p + q) :: cumsumFrom (acc + p + q) rs from rfl] at h2
      simp [h1, h2]

theorem sum_map_add (l : List ℚ) (d : ℚ) :
    (l.map (fun p => p + d)).sum = l.sum + l.length * d := by
  induction l with
  | nil => simp
  | cons p rest ih =>
    simp [ih]
    ring

theorem sum_eraseIdx_add (l : List ℚ) (j : Nat) (hj : j < l.length) :
    (l.eraseIdx j).sum + l.getD j 0 = l.sum := by
  induction l generalizing j with
  | nil => simp at hj
  | cons a rest ih =>
    cases j with
    | zero => simp [List.eraseIdx]; ring
    | succ j =>
      have hj' : j < rest.length := by simpa using hj
      rw [show (a :: rest).eraseIdx (j + 1) = a :: rest.eraseIdx j from rfl]
      rw [show (a :: rest).getD (j + 1) 0 = rest.getD j 0 from rfl]
      simp only [List.sum_cons]
      rw [add_assoc, ih j hj']

theorem mem_getD {α : Type} (l : List α) (j : Nat) (d : α) (hj : j < l.length) :
    l.getD j d ∈ l := by
  rw [List.getD_eq_getElem?_getD, List.getElem?_eq_getElem hj]
  exact List.getElem_mem hj

theorem eraseP_eq_eraseIdx_findIdx (p : Val → Bool) (l : List Val) :
    l.eraseP p = l.eraseIdx (l.findIdx p) := by
  induction l with
  | nil => rfl
  | cons a rest ih =>
    by_cases h : p a = true
    · simp [List.eraseP_cons_of_pos h, List.findIdx_cons, h]
    · rw [List.eraseP_cons_of_neg (by simp [h]), List.findIdx_cons]
      simp only [h, cond_false]
      rw [show (a :: rest).eraseIdx (rest.findIdx p + 1) =
            a :: rest.eraseIdx (rest.findIdx p) from rfl, ih]

theorem findIdx_pyEq_getD (l : List Val) (j : Nat) (hj : j < l.length)
    (hd : distinctVals l) :
    l.findIdx (fun u => pyEq u (l.getD j (.intV 0))) = j := by
  rw [List.findIdx_eq hj]
  constructor
  · rw [List.getD_eq_getElem?_getD, List.getElem?_eq_getElem hj]
    simp [pyEq_refl]
  · intro j' hj'
    rw [List.getD_eq_getElem?_getD, List.getElem?_eq_getElem hj]
    have := List.pairwise_iff_getElem.mp hd j' j (Nat.lt_trans hj' hj) hj hj'
    simpa using this

theorem npIsClose_le (a : ℚ) (h : npIsClose a 1 = true) : a ≤ 1 + npTol := by
  simp only [npIsClose, decide_eq_true_eq, abs_le, abs_one] at h
  simp only [npTol]
  linarith [h.2]

theorem npIsClose_one : npIsClose 1 1 = true := by
  norm_num [npIsClose]

theorem pos_le_sum (l : List ℚ) (h : ∀ p ∈ l, 0 < p) (p : ℚ) (hp : p ∈ l) :
    p ≤ l.sum :=
  List.single_le_sum (fun x hx => le_of_lt (h x hx)) p hp

/-- Any successful `removeImpl` call reaches `removeAt` with an in-range
resolved position `jn` and a value present in the table; `jn` is the first
`==`-match of the value (value selector) or the normalized index (index
selector). -/
theorem removeImpl_ok_shape (t : Table) (value : Option Val) (index : Option Int)
    (t' : Table) (h : removeImpl t value index = (t', none)) :
    ∃ (v : Val) (jn : Nat), jn < t.nums.length ∧ (∃ u ∈ t.nums, pyEq u v = true) ∧
      removeAt t v jn = (t', none) ∧
      (jn = t.nums.findIdx (fun u => pyEq u v) ∨ v = t.nums.getD jn (.intV 0)) := by
  rcases value with _ | v <;> rcases index with _ | i
  · simp [removeImpl] at h
  · simp only [removeImpl] at h
    split at h
    · simp at h
    · rename_i hc
      rw [not_not] at hc
      have hjn : ((if i < 0 then i + (t.nums.length : Int) else i).toNat) <
          t.nums.length := by
        rcases hc with ⟨hc1, hc2⟩
        split <;> omega
      exact ⟨t.nums.getD _ (.intV 0), _, hjn,
        ⟨_, mem_getD _ _ _ hjn, pyEq_refl _⟩, h, Or.inr rfl⟩
  · simp only [removeImpl] at h
    split at h
    · simp at h
    · rename_i hc
      rw [not_not] at hc
      have hex : ∃ u ∈ t.nums, pyEq u v = true := by
        simpa [containsV, List.any_eq_true] using hc
      exact ⟨v, _, List.findIdx_lt_length_of_exists (by simpa using hex),
        hex, h, Or.inl rfl⟩
  · simp [removeImpl] at h

/-- C5: every failing invocation of `remove` — ambiguous selector,
out-of-range index, absent value, or single remaining element — leaves the
table exactly as it was: no partial mutation is observable. -/
theorem remove_failure_leaves_table (t : Table) (value : Option Val)
    (index : Option Int) (t' : Table) (e : PyErr)
    (hfail : removeImpl t value index = (t', some e)) : t' = t := by
  rcases value with _ | v <;> rcases index with _ | i <;>
      simp only [removeImpl, removeAt] at hfail <;>
    first
      | exact (congrArg Prod.fst hfail).symm
      | (split at hfail <;>
          first
            | exact (congrArg Prod.fst hfail).symm
            | (split at hfail <;>
                first
                  | exact (congrArg Prod.fst hfail).symm
                  | simp at hfail))

/-- C5 witness: removing with neither selector fails and leaves the example
table untouched. -/
theorem remove_failure_leaves_table_witness : exTable = exTable :=
  remove_failure_leaves_table exTable none none exTable
    (.valueError "To remove element, specify either its value or its index") rfl

/-- C6: removing the absent value `5` from the example table.  The source's
`raise "Passed value is not present in RNG's possible numbers"` statement
raises the Python `TypeError` for raising a non-exception, not an error
class reporting the absent value; the table itself is left unchanged. -/
theorem remove_absent_value_raises :
    removeImpl exTable (some (.intV 5)) none =
      (exTable, some (.typeError "exceptions must derive from BaseException")) := by
  norm_num [removeImpl, containsV, pyEq, Val.toRat, exTable]

/-- C8: `next_k_nums(k)` raises
`ValueError("Invalid k: must be a positive integer")` whenever `k` is not a
positive integer (zero, negative, or a float). -/
theorem next_k_nums_invalid_count {S : Type} (M : RngModel S) (sp : Sampler S)
    (k : PyNum) (hk : ∀ n : Int, k = PyNum.intN n → n ≤ 0) :
    nextKNums M sp k = .error (.valueError "Invalid k: must be a positive integer") := by
  cases k with
  | intN n =>
    have hn := hk n rfl
    simp only [nextKNums]
    rw [if_neg (by omega)]
  | floatN q => rfl

/-- C8 witness: `k = 0` on a concrete sampler raises the invalid-count error. -/
theorem next_k_nums_invalid_count_witness :
    nextKNums (rngConst 0) (spOf halfTable) (.intN 0) =
      .error (.valueError "Invalid k: must be a positive integer") :=
  next_k_nums_invalid_count (rngConst 0) (spOf halfTable) (.intN 0)
    (by intro n hn; injection hn with h; omega)

/-- C9: two samplers built over the same random-source model from identical
values, probabilities and seed — regardless of the sources' states before
seeding — produce identical sequences of `m` draw results. -/
theorem seed_determinism {S : Type} (M : RngModel S) (sA sB : S)
    (random_nums : List Val) (probabilities : Option (List ℚ)) (sd : Int)
    (sp1 sp2 : Sampler S) (m : Nat)
    (h1 : mkSampler M sA random_nums probabilities (some sd) = .ok sp1)
    (h2 : mkSampler M sB random_nums probabilities (some sd) = .ok sp2) :
    drawSeq M sp1 m = drawSeq M sp2 m := by
  have he : sp1 = sp2 := by
    simp only [mkSampler] at h1 h2
    cases hin : initTable random_nums probabilities with
    | error e => rw [hin] at h1; cases h1
    | ok t =>
      rw [hin] at h1 h2
      injection h1 with h1'
      injection h2 with h2'
      rw [← h1', ← h2']
  rw [he]

/-- A stateful random source over `Int` state: seeding overwrites the state
with the seed, each draw returns `0` and advances the state. -/
def rngIter : RngModel Int :=
  { seedF := fun s => s, randomF := fun s => (0, s + 1) }

/-- C9 witness: two samplers over `rngIter` whose pre-seed states differ
(`5` and `77`) but share seed `42` draw identical sequences of length 3. -/
theorem seed_determinism_witness :
    drawSeq rngIter { rngState := 42, seedVal := some 42, table := halfTable } 3 =
      drawSeq rngIter { rngState := 42, seedVal := some 42, table := halfTable } 3 :=
  seed_determinism rngIter 5 77 [.intV 7, .intV 9] (some [1/2, 1/2]) 42 _ _ 3
    (by norm_num [mkSampler, initTable, rngIter, pySetSize, pyEq, Val.toRat,
          npIsClose, cumsum, cumsumFrom, halfTable])
    (by norm_num [mkSampler, initTable, rngIter, pySetSize, pyEq, Val.toRat,
          npIsClose, cumsum, cumsumFrom, halfTable])

/-- C10: value distinctness and membership use Python numeric equality across
subtypes: constructing from the values `1` (int) and `1.0` (float) fails with
the duplicate-value error, and `__contains__` is true for any query that is
numerically equal to a stored value. -/
theorem numeric_equality_crosstype :
    initTable [Val.intV 1, Val.floatV 1] none =
      .error (.valueError "Values cannot repeat, ambiguous") ∧
    ∀ (t : Table) (v : Val), (∃ u ∈ t.nums, u.toRat = v.toRat) →
      containsV t v = true := by
  constructor
  · norm_num [initTable, pySetSize, pyEq, Val.toRat]
  · rintro t v ⟨u, hu, he⟩
    simp only [containsV, List.any_eq_true]
    exact ⟨u, hu, by simp [pyEq, he]⟩

/-- C10 witness: a table storing the float `1.0` contains the int `1`. -/
theorem numeric_equality_crosstype_witness :
    containsV { nums := [Val.floatV 1], probs := [1], cdf := [1] } (Val.intV 1) = true :=
  numeric_equality_crosstype.2 _ _ ⟨Val.floatV 1, by simp, by simp [Val.toRat]⟩

/-- C4 counterexample: supplying an *empty* probabilities list together with
two values does not raise the length-mismatch error — the Python-truthiness
guard `if probabilities:` treats `[]` like `None`, and construction succeeds
with equal probabilities. -/
theorem construct_empty_probs_ok :
    initTable [.intV 1, .intV 2] (some []) =
      .ok { nums := [.intV 1, .intV 2], probs := [1/2, 1/2], cdf := [1/2, 1] } := by
  norm_num [initTable, pySetSize, pyEq, Val.toRat, cumsum, cumsumFrom, List.replicate]

/-- C4 amended: for non-empty, duplicate-free values and a *non-empty*
supplied probabilities list, construction fails with
`ValueError("Inputs not compatible")` whenever the lengths differ. -/
theorem construct_length_mismatch (vs : List Val) (ps : List ℚ)
    (hvs : vs.length ≠ 0) (hdup : ¬ pySetSize vs < vs.length)
    (hps : ps ≠ []) (hlen : ps.length ≠ vs.length) :
    initTable vs (some ps) = .error (.valueError "Inputs not compatible") := by
  simp only [initTable]
  rw [if_neg hvs, if_neg hdup, if_pos (by simpa using hps), if_pos hlen]

/-- C4 witness: two values with a single probability raise the mismatch
error. -/
theorem construct_length_mismatch_witness :
    initTable [.intV 1, .intV 2] (some [1/2]) =
      .error (.valueError "Inputs not compatible") :=
  construct_length_mismatch [.intV 1, .intV 2] [1/2] (by simp)
    (by norm_num [pySetSize, pyEq, Val.toRat]) (by simp) (by simp)

/-- C1 counterexample: with cdf `[1/2, 1]` and the uniform draw landing
exactly on `r = 1/2`, the smallest index with `cdf[i] > r` is `1` (value `9`),
but the draw engine (numpy `searchsorted`, default `side='left'`) returns the
value at index `0` (value `7`). -/
theorem draw_tie_counter :
    (nextV (rngConst (1/2)) (spOf halfTable)).1 = .ok (.intV 7) ∧
    ¬(halfTable.cdf.getD 0 0 > 1/2) ∧ halfTable.cdf.getD 1 0 > 1/2 ∧
    halfTable.nums.getD 1 (.intV 0) = .intV 9 ∧ Val.intV 9 ≠ .intV 7 := by
  refine ⟨?_, by norm_num [halfTable], by norm_num [halfTable],
    by simp [halfTable], by simp⟩
  norm_num [nextV, rngConst, spOf, halfTable, searchsortedLeft, List.findIdx_cons]

/-- C1 amended: one invocation of the draw engine with uniform draw `r`
returns `values[i]` where `i` is the smallest index with `cdf[i] ≥ r`
(`numpy.searchsorted` with `side='left'`), provided such an index exists. -/
theorem draw_leftmost_ge {S : Type} (M : RngModel S) (sp : Sampler S) (r : ℚ)
    (s' : S) (hr : M.randomF sp.rngState = (r, s'))
    (hlen : sp.table.cdf.length = sp.table.nums.length)
    (hlt : searchsortedLeft sp.table.cdf r < sp.table.nums.length) :
    (nextV M sp).1 =
      .ok (sp.table.nums.getD (searchsortedLeft sp.table.cdf r) (.intV 0)) ∧
    r ≤ sp.table.cdf.getD (searchsortedLeft sp.table.cdf r) 0 ∧
    ∀ j, j < searchsortedLeft sp.table.cdf r → sp.table.cdf.getD j 0 < r := by
  have hlt' : searchsortedLeft sp.table.cdf r < sp.table.cdf.length := by
    rw [hlen]; exact hlt
  refine ⟨?_, ?_, ?_⟩
  · simp only [nextV, hr]
    rw [List.getElem?_eq_getElem hlt]
    simp [List.getD_eq_getElem?_getD, List.getElem?_eq_getElem hlt]
  · have h := @List.findIdx_getElem _ (fun x => decide (r ≤ x)) sp.table.cdf hlt'
    rw [List.getD_eq_getElem?_getD, List.getElem?_eq_getElem hlt']
    simpa [searchsortedLeft] using h
  · intro j hj
    have hjl : j < sp.table.cdf.length :=
      Nat.lt_of_lt_of_le hj (by
        have hle := @List.findIdx_le_length _ (fun x => decide (r ≤ x)) sp.table.cdf
        simpa [searchsortedLeft] using hle)
    have h := @List.not_of_lt_findIdx _ (fun x => decide (r ≤ x)) sp.table.cdf j
      (by simpa [searchsortedLeft] using hj)
    rw [List.getD_eq_getElem?_getD, List.getElem?_eq_getElem hjl]
    simpa using h

/-- C1 amended witness: drawing `r = 1/4` on the half/half table returns the
value at the smallest index whose cdf entry is at least `1/4`. -/
theorem draw_leftmost_ge_witness :
    (nextV (rngConst (1/4)) (spOf halfTable)).1 =
      .ok (halfTable.nums.getD (searchsortedLeft halfTable.cdf (1/4)) (.intV 0)) ∧
    (1/4 : ℚ) ≤ halfTable.cdf.getD (searchsortedLeft halfTable.cdf (1/4)) 0 ∧
    ∀ j, j < searchsortedLeft halfTable.cdf (1/4) → halfTable.cdf.getD j 0 < 1/4 :=
  draw_leftmost_ge (rngConst (1/4)) (spOf halfTable) (1/4) () rfl rfl
    (by norm_num [searchsortedLeft, halfTable, spOf, List.findIdx_cons])

/-- When every uniform draw stays strictly below the last CDF entry, `m`
iterations of the draw loop succeed, produce exactly `m` values from the
table, and leave the table itself unchanged. -/
theorem drawN_ok {S : Type} (M : RngModel S) (t : Table)
    (hlen : t.cdf.length = t.nums.length) (hne : t.nums ≠ [])
    (hr : ∀ s : S, (M.randomF s).1 < t.cdf.getLast?.getD 0) :
    ∀ (m : Nat) (sp : Sampler S), sp.table = t →
      ∃ vs sp', drawN M sp m = .ok (vs, sp') ∧ vs.length = m ∧
        (∀ v ∈ vs, v ∈ t.nums) ∧ sp'.table = t := by
  have hcdfne : t.cdf ≠ [] := by
    intro hd
    apply hne
    have : t.nums.length = 0 := by rw [← hlen, hd]; rfl
    simpa using this
  have hidx : ∀ r : ℚ, r < t.cdf.getLast?.getD 0 →
      searchsortedLeft t.cdf r < t.nums.length := by
    intro r hrl
    rw [← hlen]
    apply List.findIdx_lt_length_of_exists
    refine ⟨t.cdf.getLast hcdfne, List.getLast_mem hcdfne, ?_⟩
    rw [List.getLast?_eq_getLast t.cdf hcdfne] at hrl
    simp only [Option.getD_some] at hrl
    simp [le_of_lt hrl]
  intro m
  induction m with
  | zero => intro sp hsp; exact ⟨[], sp, rfl, rfl, by simp, hsp⟩
  | succ m ih =>
    intro sp hsp
    have hi : searchsortedLeft t.cdf (M.randomF sp.rngState).1 < t.nums.length :=
      hidx _ (hr sp.rngState)
    have hnv : nextV M sp =
        (.ok (t.nums.getD (searchsortedLeft t.cdf (M.randomF sp.rngState).1) (.intV 0)),
          { sp with rngState := (M.randomF sp.rngState).2 }) := by
      simp only [nextV, hsp]
      rw [List.getElem?_eq_getElem hi]
      simp [List.getD_eq_getElem?_getD, List.getElem?_eq_getElem hi]
    obtain ⟨vs, sp', hdraw, hl, hm, hsp'⟩ :=
      ih { sp with rngState := (M.randomF sp.rngState).2 } hsp
    refine ⟨t.nums.getD (searchsortedLeft t.cdf (M.randomF sp.rngState).1) (.intV 0) :: vs,
      sp', ?_, by simp [hl], ?_, hsp'⟩
    · simp only [drawN, hnv, hdraw]
    · intro v hv
      rcases List.mem_cons.mp hv with hv | hv
      · rw [hv]; exact mem_getD _ _ _ hi
      · exact hm v hv

/-- C7 amended: for a table whose CDF spans every drawn uniform (in
particular whenever the probabilities sum to exactly 1, so the cdf ends at 1
and draws lie in `[0,1)`), `next_k_nums(k)` with a positive integer `k`
yields exactly `k` outcomes, each a member of the current value set. -/
theorem draw_many_exact {S : Type} (M : RngModel S) (sp : Sampler S) (n : Int)
    (hn : 0 < n) (hlen : sp.table.cdf.length = sp.table.nums.length)
    (hne : sp.table.nums ≠ [])
    (hr : ∀ s : S, (M.randomF s).1 < sp.table.cdf.getLast?.getD 0) :
    ∃ vs sp', nextKNums M sp (.intN n) = .ok (vs, sp') ∧
      (vs.length : Int) = n ∧ ∀ v ∈ vs, v ∈ sp.table.nums := by
  obtain ⟨vs, sp', hdraw, hl, hm, _⟩ :=
    drawN_ok M sp.table hlen hne hr n.toNat sp rfl
  refine ⟨vs, sp', ?_, ?_, hm⟩
  · simp only [nextKNums]
    rw [if_pos hn]
    exact hdraw
  · rw [hl]; omega

/-- C7 amended witness: `k = 2` on the half/half table with constant draw
`1/4` yields exactly two outcomes from the value set. -/
theorem draw_many_exact_witness :
    ∃ vs sp', nextKNums (rngConst (1/4)) (spOf halfTable) (.intN 2) = .ok (vs, sp') ∧
      (vs.length : Int) = 2 ∧ ∀ v ∈ vs, v ∈ (spOf halfTable).table.nums :=
  draw_many_exact (rngConst (1/4)) (spOf halfTable) 2 (by omega) rfl
    (by simp [spOf, halfTable]) (by intro s; norm_num [rngConst, spOf, halfTable])

/-- C7 counterexample: `shortTable` is accepted by construction (its
probability mass is `999999/1000000`, within the `isclose` tolerance), yet a
legitimate uniform draw `r = 1999999/2000000 ∈ [0, 1)` falls at or above the
last CDF entry, so `next_k_nums(1)` raises `IndexError` instead of yielding
one outcome. -/
theorem draw_many_counter :
    initTable [.intV 0, .intV 1] (some [1/2, 499999/1000000]) = .ok shortTable ∧
    (0 ≤ (1999999 : ℚ)/2000000 ∧ (1999999 : ℚ)/2000000 < 1) ∧
    nextKNums (rngConst (1999999/2000000)) (spOf shortTable) (.intN 1) =
      .error (.indexError "list index out of range") := by
  refine ⟨?_, by norm_num, ?_⟩
  · norm_num [initTable, pySetSize, pyEq, Val.toRat, npIsClose, abs_le, cumsum,
      cumsumFrom, shortTable]
  · norm_num [nextKNums, drawN, nextV, rngConst, spOf, shortTable,
      searchsortedLeft, List.findIdx_cons]

/-- C2: a successful `remove` on a table (necessarily of size at least 2)
removes one position `jn` from the values and probabilities; every remaining
probability is incremented by exactly `p_removed / (n_prev - 1)`, the removed
outcome's probability split equally.  In particular, removing the value `0`
from the spec's example table `[-1, 0, 1]` with probabilities
`[0.3, 0.3, 0.4]` leaves probabilities `[0.45, 0.55]`. -/
theorem remove_equal_share (t t' : Table) (value : Option Val) (index : Option Int)
    (hdist : distinctVals t.nums) (hlen : t.nums.length = t.probs.length)
    (hsucc : removeImpl t value index = (t', none)) :
    (∃ jn, jn < t.nums.length ∧ t'.nums = t.nums.eraseIdx jn ∧
      t'.probs = (t.probs.eraseIdx jn).map
        (fun p => p + t.probs.getD jn 0 / ((t.nums.length : ℚ) - 1))) ∧
    removeImpl exTable (some (.intV 0)) none = (exTableR, none) := by
  constructor
  · obtain ⟨v, jn, hjn, hmem, hra, hal⟩ := removeImpl_ok_shape t value index t' hsucc
    simp only [removeAt] at hra
    split at hra
    · simp at hra
    · rw [Prod.mk.injEq] at hra
      have ht' := hra.1.symm
      refine ⟨jn, hjn, ?_, ?_⟩
      · rw [ht']
        show t.nums.eraseP (fun u => pyEq u v) = t.nums.eraseIdx jn
        rcases hal with h | h
        · rw [eraseP_eq_eraseIdx_findIdx, ← h]
        · rw [h, eraseP_eq_eraseIdx_findIdx, findIdx_pyEq_getD t.nums jn hjn hdist]
      · rw [ht']
  · norm_num [removeImpl, removeAt, containsV, pyEq, Val.toRat, exTable, exTableR,
      List.findIdx_cons, cumsum, cumsumFrom]

/-- C2 witness: the equal-share redistribution at the spec's example:
removing `0` from `[-1, 0, 1]` / `[0.3, 0.3, 0.4]` gives `[0.45, 0.55]`. -/
theorem remove_equal_share_witness :
    (∃ jn, jn < exTable.nums.length ∧ exTableR.nums = exTable.nums.eraseIdx jn ∧
      exTableR.probs = (exTable.probs.eraseIdx jn).map
        (fun p => p + exTable.probs.getD jn 0 / ((exTable.nums.length : ℚ) - 1))) ∧
    removeImpl exTable (some (.intV 0)) none = (exTableR, none) :=
  remove_equal_share exTable exTableR (some (.intV 0)) none
    (by norm_num [distinctVals, pyEq, Val.toRat, exTable, List.pairwise_cons])
    (by simp [exTable])
    (by norm_num [removeImpl, removeAt, containsV, pyEq, Val.toRat, exTable, exTableR,
      List.findIdx_cons, cumsum, cumsumFrom])

/-- Any probability vector that passes the construction checks yields a table
satisfying the invariant. -/
theorem tableInv_of_checks (vs : List Val) (ps : List ℚ)
    (hlen : ps.length = vs.length) (h1 : 1 ≤ vs.length)
    (hclose : npIsClose ps.sum 1 = true)
    (hbd : ∀ p ∈ ps, 0 < p ∧ p ≤ 1) :
    tableInv { nums := vs, probs := ps, cdf := cumsum ps } := by
  have hTol : (0 : ℚ) ≤ npTol := by norm_num [npTol]
  refine ⟨hlen.symm, ?_, h1, ?_, hclose, ?_, ?_⟩
  · simp [cumsum, cumsumFrom_length]
  · intro p hp
    exact ⟨(hbd p hp).1, le_trans (hbd p hp).2 (by linarith)⟩
  · exact nondecr_cumsumFrom ps 0 (fun p hp => le_of_lt (hbd p hp).1)
  · have hne : ps ≠ [] := by
      intro h
      rw [h] at hlen
      simp at hlen
      omega
    show npIsClose ((cumsumFrom 0 ps).getLast?.getD 0) 1 = true
    rw [cumsumFrom_getLast ps 0 hne]
    simpa using hclose

/-- The equal-probability default (`[1/n] * n`) yields a table satisfying the
invariant. -/
theorem tableInv_replicate (vs : List Val) (h1 : 1 ≤ vs.length) :
    tableInv { nums := vs, probs := List.replicate vs.length (1 / (vs.length : ℚ)),
               cdf := cumsum (List.replicate vs.length (1 / (vs.length : ℚ))) } := by
  have hn : 0 < vs.length := h1
  have hn0 : (0 : ℚ) < (vs.length : ℚ) := by exact_mod_cast hn
  have hsum : (List.replicate vs.length (1 / (vs.length : ℚ))).sum = 1 := by
    rw [List.sum_replicate, nsmul_eq_mul]
    field_simp
  refine tableInv_of_checks vs _ (by simp) h1 (by rw [hsum]; exact npIsClose_one) ?_
  intro p hp
  have hp' := List.eq_of_mem_replicate hp
  subst hp'
  constructor
  · exact div_pos one_pos hn0
  · rw [div_le_one hn0]
    exact_mod_cast h1

/-- The successful tail of `remove` preserves the table invariant: the
removed mass is redistributed exactly, so the total is unchanged, every new
probability stays positive and below the total, and the rebuilt CDF is again
monotone ending at the total. -/
theorem removeAt_preserves (t : Table) (v : Val) (jn : Nat)
    (hinv : tableInv t) (hjn : jn < t.nums.length)
    (hmem : ∃ u ∈ t.nums, pyEq u v = true)
    (t' : Table) (hok : removeAt t v jn = (t', none)) : tableInv t' := by
  obtain ⟨hl1, hl2, hn1, hbd, hsum, hmono, hlast⟩ := hinv
  simp only [removeAt] at hok
  split at hok
  · simp at hok
  · rename_i hn2
    rw [Prod.mk.injEq] at hok
    have ht' := hok.1.symm
    subst ht'
    have hn2' : 2 ≤ t.nums.length := by omega
    have hjp : jn < t.probs.length := hl1 ▸ hjn
    have hgmem : t.probs.getD jn 0 ∈ t.probs := mem_getD _ _ _ hjp
    have hgpos : 0 < t.probs.getD jn 0 := (hbd _ hgmem).1
    have hden : (0 : ℚ) < (t.nums.length : ℚ) - 1 := by
      have h2 : (2 : ℚ) ≤ (t.nums.length : ℚ) := by exact_mod_cast hn2'
      linarith
    have hdpos : 0 < t.probs.getD jn 0 / ((t.nums.length : ℚ) - 1) :=
      div_pos hgpos hden
    have hlenE : (t.probs.eraseIdx jn).length = t.probs.length - 1 :=
      List.length_eraseIdx_of_lt hjp
    have hsum' : ((t.probs.eraseIdx jn).map
        (fun p => p + t.probs.getD jn 0 / ((t.nums.length : ℚ) - 1))).sum =
        t.probs.sum := by
      rw [sum_map_add, hlenE]
      have hcast : ((t.probs.length - 1 : Nat) : ℚ) = (t.nums.length : ℚ) - 1 := by
        rw [← hl1, Nat.cast_sub (by omega)]
        simp
      rw [hcast]
      have hmul : ((t.nums.length : ℚ) - 1) *
          (t.probs.getD jn 0 / ((t.nums.length : ℚ) - 1)) = t.probs.getD jn 0 := by
        field_simp
      rw [hmul]
      exact sum_eraseIdx_add t.probs jn hjp
    have hpos' : ∀ p ∈ (t.probs.eraseIdx jn).map
        (fun p => p + t.probs.getD jn 0 / ((t.nums.length : ℚ) - 1)), 0 < p := by
      intro p hp
      obtain ⟨p0, hp0, rfl⟩ := List.mem_map.mp hp
      have hqp := (hbd p0 (List.mem_of_mem_eraseIdx hp0)).1
      linarith
    obtain ⟨u, hu, hpu⟩ := hmem
    have hlenN : (t.nums.eraseP (fun w => pyEq w v)).length = t.nums.length - 1 :=
      List.length_eraseP_of_mem hu hpu
    unfold tableInv
    dsimp only
    refine ⟨?_, ?_, ?_, ?_, ?_, ?_, ?_⟩
    · rw [hlenN, List.length_map, hlenE, hl1]
    · simp [cumsum, cumsumFrom_length]
    · rw [hlenN]
      omega
    · intro p hp
      refine ⟨hpos' p hp, ?_⟩
      have hle := pos_le_sum _ hpos' p hp
      rw [hsum'] at hle
      have hs1 := npIsClose_le _ hsum
      linarith
    · rw [hsum']
      exact hsum
    · exact nondecr_cumsumFrom _ 0 (fun p hp => le_of_lt (hpos' p hp))
    · have hne' : (t.probs.eraseIdx jn).map
          (fun p => p + t.probs.getD jn 0 / ((t.nums.length : ℚ) - 1)) ≠ [] := by
        have hlp : 0 < ((t.probs.eraseIdx jn).map
            (fun p => p + t.probs.getD jn 0 / ((t.nums.length : ℚ) - 1))).length := by
          rw [List.length_map, hlenE, ← hl1]
          omega
        exact List.ne_nil_of_length_pos hlp
      show npIsClose ((cumsumFrom 0 _).getLast?.getD 0) 1 = true
      rw [cumsumFrom_getLast _ 0 hne']
      simp only [Option.getD_some, zero_add]
      rw [hsum']
      exact hsum

/-- C3 amended: after every successful construction and after every
successful remove, the table satisfies: the three columns have equal length
at least 1, every probability is positive and at most `1 + npTol` (the
`isclose` slack — the original `(0, 1]` bound can be exceeded by exactly the
tolerated deviation of the total), the probabilities sum to 1 within the
`isclose` tolerance, and the CDF is non-decreasing with last entry 1 within
that tolerance. -/
theorem table_invariant :
    (∀ (vs : List Val) (ps : Option (List ℚ)) (t : Table),
        initTable vs ps = .ok t → tableInv t) ∧
    (∀ (t t' : Table) (value : Option Val) (index : Option Int),
        tableInv t → removeImpl t value index = (t', none) → tableInv t') := by
  constructor
  · intro vs ps t hinit
    rcases ps with _ | ps
    · simp only [initTable] at hinit
      split at hinit
      · cases hinit
      · split at hinit
        · cases hinit
        · rename_i hz hd
          injection hinit with h
          rw [← h]
          exact tableInv_replicate vs (by omega)
    · simp only [initTable] at hinit
      split at hinit
      · cases hinit
      · split at hinit
        · cases hinit
        · rename_i hz hd
          split at hinit
          · split at hinit
            · cases hinit
            · split at hinit
              · cases hinit
              · rename_i hzp hlp hbad
                injection hinit with h
                rw [← h]
                have hclose : npIsClose ps.sum 1 = true := by
                  cases hnp : npIsClose ps.sum 1 with
                  | false => exact absurd (by rw [hnp]; rfl) hbad
                  | true => rfl
                have hbd : ∀ p ∈ ps, 0 < p ∧ p ≤ 1 := by
                  intro p hp
                  have hnb : ¬(decide (p ≤ 0) || decide (1 < p)) = true := by
                    intro hcon
                    exact hbad (by
                      rw [Bool.or_eq_true]
                      exact Or.inr (List.any_eq_true.mpr ⟨p, hp, hcon⟩))
                  simp only [Bool.or_eq_true, decide_eq_true_eq, not_or] at hnb
                  exact ⟨lt_of_not_le hnb.1, le_of_not_lt hnb.2⟩
                have hlen' : ps.length = vs.length := not_not.mp hlp
                exact tableInv_of_checks vs ps hlen' (by omega) hclose hbd
          · rename_i hzp
            injection hinit with h
            rw [← h]
            exact tableInv_replicate vs (by omega)
  · intro t t' value index hinv hrem
    obtain ⟨v, jn, hjn, hmem, hra, -⟩ := removeImpl_ok_shape t value index t' hrem
    exact removeAt_preserves t v jn hinv hjn hmem t' hra

/-- C3 witness: the invariant holds for the example table as constructed and
after removing the value `0`. -/
theorem table_invariant_witness : tableInv exTable ∧ tableInv exTableR :=
  ⟨table_invariant.1 [.intV (-1), .intV 0, .intV 1] (some [3/10, 3/10, 2/5]) exTable
      (by norm_num [initTable, pySetSize, pyEq, Val.toRat, npIsClose, abs_le,
        cumsum, cumsumFrom, exTable]),
   table_invariant.2 exTable exTableR (some (.intV 0)) none
      (table_invariant.1 [.intV (-1), .intV 0, .intV 1] (some [3/10, 3/10, 2/5]) exTable
        (by norm_num [initTable, pySetSize, pyEq, Val.toRat, npIsClose, abs_le,
          cumsum, cumsumFrom, exTable]))
      (by norm_num [removeImpl, removeAt, containsV, pyEq, Val.toRat, exTable,
        exTableR, List.findIdx_cons, cumsum, cumsumFrom])⟩

/-- C3 counterexample to the literal `(0, 1]` bound: `overTable` passes
construction (its mass `1000001/1000000` is within the `isclose` tolerance),
and successfully removing the value `1` leaves the single probability
`1000001/1000000 > 1`. -/
theorem invariant_upper_counter :
    initTable [.intV 1, .intV 2] (some [1/2, 500001/1000000]) = .ok overTable ∧
    removeImpl overTable (some (.intV 1)) none = (overTableR, none) ∧
    (1000001/1000000 : ℚ) ∈ overTableR.probs ∧ ¬((1000001/1000000 : ℚ) ≤ 1) := by
  refine ⟨?_, ?_, by simp [overTableR], by norm_num⟩
  · norm_num [initTable, pySetSize, pyEq, Val.toRat, npIsClose, abs_le, cumsum,
      cumsumFrom, overTable]
  · norm_num [removeImpl, removeAt, containsV, pyEq, Val.toRat, overTable,
      overTableR, List.findIdx_cons, cumsum, cumsumFrom]
